import Mathlib

set_option maxRecDepth 6000

/-!
Verification development for the predictive-text suggestion engine of the
keyboard module (`keyboard/keyboard_predictive.py`).

The Python source is shallowly embedded: Python dicts become insertion-ordered
association lists, floating point scores and timestamps become rationals,
network and remote-service I/O is abstracted by explicit oracles (an oracle
value stands for whatever the corresponding blocking call returned), and the
module-level mutable state (network-status cache, API result cache) is passed
explicitly.  Every definition mirrors the control flow of the corresponding
Python function; the oracle parameters only replace the calls whose outcome is
decided outside the program (HTTP requests, socket probes, the clock).
-/

namespace KeyboardPredictive

/-! ## Python string helpers

Models of the string operations used by the source: `str.upper`,
`str.replace("|", "")`, `str.strip`, `str.split()`, `str.rstrip("|")`,
`str.endswith(" ")`, `str.startswith`. -/

/-- Model of Python `str.upper()` (ASCII case mapping suffices here:
the learning store and API words are plain words). -/
def pyUpper (s : String) : String := s.map Char.toUpper

/-- Model of `text.replace("|", "")`. -/
def removePipes (s : String) : String := (s.toList.filter (fun c => c ≠ '|')).asString

/-- Model of Python `str.strip()` (trim whitespace at both ends). -/
def pyStrip (s : String) : String :=
  ((s.toList.dropWhile Char.isWhitespace).reverse.dropWhile Char.isWhitespace).reverse.asString

/-- Model of Python `str.split()` with no argument: split on whitespace runs,
dropping empty pieces. -/
def splitWs (s : String) : List String :=
  (s.split Char.isWhitespace).filter (fun w => w ≠ "")

/-- Model of `text.rstrip("|").endswith(" ")` from the source: after removing
trailing cursor markers, does the text end with a space? -/
def hasTrailingSpace (t : String) : Bool :=
  match t.toList.reverse.dropWhile (fun c => c = '|') with
  | [] => false
  | c :: _ => c = ' '

/-- The cleaning applied to the input text:
`text.upper().replace("|", "").strip()`. -/
def cleanText (t : String) : String := pyStrip (removePipes (pyUpper t))

/-! ## Insertion-ordered dictionaries

Python dicts preserve insertion order; we model them as association lists.
`dictSet` is `d[k] = v` (update in place, or append for a new key),
`dictAdd` is `d[k] = d.get(k, 0) + v`, `dictDel` is `del d[k]`. -/

/-- Dictionary lookup (`d.get(k)` / `k in d`). -/
def lookupD {β : Type} : List (String × β) → String → Option β
  | [], _ => none
  | (k, v) :: rest, key => if k = key then some v else lookupD rest key

/-- Python dict assignment `d[key] = v`: replaces the value in place for an
existing key, appends for a new key. -/
def dictSet {β : Type} : List (String × β) → String → β → List (String × β)
  | [], key, v => [(key, v)]
  | (k, w) :: rest, key, v =>
    if k = key then (k, v) :: rest else (k, w) :: dictSet rest key v

/-- Python `d[key] = d.get(key, 0) + v`. -/
def dictAdd (d : List (String × ℚ)) (key : String) (v : ℚ) : List (String × ℚ) :=
  dictSet d key ((lookupD d key).getD 0 + v)

/-- Python `del d[key]` (on a dict all keys are distinct, so removing every
entry with the key removes exactly the one entry). -/
def dictDel {β : Type} (d : List (String × β)) (key : String) : List (String × β) :=
  d.filter (fun p => p.1 ≠ key)

/-- Position of the first occurrence of `w` (Python `list.index`, partial). -/
def posOf : List String → String → Option ℕ
  | [], _ => none
  | x :: xs, w => if x = w then some 0 else (posOf xs w).map (· + 1)

/-! ## Sorting

`sorted(items, key=lambda x: -x[1])` is a stable sort by descending score
component; `List.insertionSort` with the relation `b.2 ≤ a.2` is also stable
and therefore produces the identical list. -/

/-- The descending-by-score relation used by all `sorted(..., key=-score)`
calls in the source. -/
def descRel (a b : String × ℚ) : Prop := b.2 ≤ a.2

instance : DecidableRel descRel := fun a b => inferInstanceAs (Decidable (b.2 ≤ a.2))

instance : IsTotal (String × ℚ) descRel := ⟨fun a b => le_total b.2 a.2⟩

instance : IsTrans (String × ℚ) descRel := ⟨fun _ _ _ h1 h2 => le_trans h2 h1⟩

/-- Model of `sorted(items, key=lambda x: -x[1])`. -/
def sortDesc (l : List (String × ℚ)) : List (String × ℚ) := l.insertionSort descRel

/-! ## Learning store and scoring (`compute_ngram_score`, `compute_freq_score`)

An entry holds a usage count and the last-used timestamp (already parsed;
the source substitutes the epoch for unparsable timestamps).  Timestamps and
the current time are rationals measured in seconds. -/

/-- One learning-store entry: `{count, last_used}`. -/
structure Entry where
  count : ℕ
  lastUsed : ℚ
deriving DecidableEq, Repr

/-- The three mappings of the persisted learning store. -/
structure Store where
  frequentWords : List (String × Entry)
  bigrams : List (String × Entry)
  trigrams : List (String × Entry)
deriving Repr

/-- The stepped recency bonus shared by both scoring functions:
+10000 within the last hour, +5000 within the last week, else 0. -/
def recencyBonus (timeDiff : ℚ) : ℚ :=
  if timeDiff < 3600 then 10000 else if timeDiff < 604800 then 5000 else 0

/-- Model of `compute_ngram_score(data, ngram_type, candidate, current_word)`. -/
def compute_ngram_score (now : ℚ) (data : Entry) (ngramType candidate currentWord : String) : ℚ :=
  let timeDiff := now - data.lastUsed
  let recency := 1 / (timeDiff + 1)
  let multiplier : ℚ := if ngramType = "trigrams" then 10 else 5
  let baseScore := multiplier * ((data.count : ℚ) + recency) + recencyBonus timeDiff
  let letterBonus := ((candidate.length : ℚ) - (currentWord.length : ℚ)) * 20
  let extraLetterBonus : ℚ :=
    if ((candidate.length : ℤ) - (currentWord.length : ℤ)) > 3 then 40 else 0
  baseScore + letterBonus + extraLetterBonus

/-- Model of `compute_freq_score(data)`. -/
def compute_freq_score (now : ℚ) (data : Entry) : ℚ :=
  let timeDiff := now - data.lastUsed
  let recency := 1 / (timeDiff + 1)
  (data.count : ℚ) + recency * 20 + recencyBonus timeDiff

/-! ## Offline predictor (`get_offline_predictions_with_scores`) -/

/-- The built-in default suggestions. -/
def DEFAULT_WORDS : List String := ["YES", "NO", "HELP"]

/-- One n-gram scan of Tier 1: for every stored n-gram whose key starts with
`ctx ++ " "`, take the final token as candidate and accumulate its score. -/
def ngramPass (now : ℚ) (grams : List (String × Entry)) (ngramType ctx currentWord : String)
    (d : List (String × ℚ)) : List (String × ℚ) :=
  grams.foldl (fun d p =>
    if (ctx ++ " ").isPrefixOf p.1 then
      let nextWord := (splitWs p.1).getLastD ""
      if (currentWord = "" ∨ currentWord.isPrefixOf nextWord) ∧ 2 ≤ nextWord.length
          ∧ 1 ≤ p.2.count then
        dictAdd d nextWord (compute_ngram_score now p.2 ngramType nextWord currentWord)
      else d
    else d) d

/-- The Tier‑2 fill loop: walk the sorted frequent-word candidates, appending
unseen words; the length test runs every iteration (after the conditional
append) and stops the loop at `num_suggestions`. -/
def tier2Fill (n : ℕ) : List (String × ℚ) → List (String × ℚ) → List (String × ℚ)
  | acc, [] => acc
  | acc, (w, s) :: rest =>
    let acc' := if w ∈ acc.map Prod.fst then acc else acc ++ [(w, s)]
    if n ≤ acc'.length then acc' else tier2Fill n acc' rest

/-- The default-word padding loop shared by both branches: append each of
`DEFAULT_WORDS` (score 1.0) while below `num_suggestions` and not present. -/
def padDefaults (n : ℕ) (acc : List (String × ℚ)) : List (String × ℚ) :=
  DEFAULT_WORDS.foldl (fun acc w =>
    if acc.length < n ∧ w ∉ acc.map Prod.fst then acc ++ [(w, 1)] else acc) acc

/-- Model of `get_offline_predictions_with_scores(text, num_suggestions)`. -/
def get_offline_predictions_with_scores (store : Store) (now : ℚ) (text : String) (n : ℕ) :
    List (String × ℚ) :=
  let hts := hasTrailingSpace text
  let cleaned := cleanText text
  let words := splitWs cleaned
  if words = [] then
    -- Tier 0: no words entered
    let defaultPreds := store.frequentWords.foldl (fun acc p =>
      if 2 ≤ p.1.length then acc ++ [(p.1, compute_freq_score now p.2)] else acc) []
    let result := (sortDesc defaultPreds).take n
    (padDefaults n result).take n
  else
    let currentWord := if hts then "" else words.getLastD ""
    let context := if hts then cleaned else String.intercalate " " words.dropLast
    -- Tier 1: n-gram predictions (trigrams first, then bigrams, scores summed)
    let ngramD :=
      if context ≠ "" ∧ (hts ∨ context ≠ currentWord) then
        let ctxWords := splitWs context
        let triCtx := if 2 ≤ ctxWords.length then
            String.intercalate " " (ctxWords.drop (ctxWords.length - 2)) else context
        let biCtx := ctxWords.getLastD ""
        let d1 := ngramPass now store.trigrams "trigrams" triCtx currentWord []
        ngramPass now store.bigrams "bigrams" biCtx currentWord d1
      else []
    -- Tier 2: frequent-word completions
    let freqD := store.frequentWords.foldl (fun d p =>
      if currentWord.isPrefixOf p.1 ∧ p.1 ≠ currentWord ∧ 2 ≤ p.1.length then
        dictSet d p.1 (compute_freq_score now p.2)
      else d) []
    -- Tier 3: assembly
    let final1 := sortDesc ngramD
    let final2 := if final1.length < n then tier2Fill n final1 (sortDesc freqD) else final1
    (padDefaults n final2).take n

/-! ## Configuration (`DEFAULT_CONFIG`, dict-merged with persisted overrides)

Fields mirror the keys of `DEFAULT_CONFIG`; claims read only some of them. -/

/-- The prediction-behavior configuration. Field order:
`online_mode_enabled, api_timeout, api_max_retries, api_vocabulary,
api_safe_mode, network_check_interval, cache_ttl, merge_strategy,
api_weight, offline_weight, debug_logging`. -/
structure Config where
  online_mode_enabled : Bool
  api_timeout : ℚ
  api_max_retries : ℕ
  api_vocabulary : String
  api_safe_mode : Bool
  network_check_interval : ℚ
  cache_ttl : ℚ
  merge_strategy : String
  api_weight : ℚ
  offline_weight : ℚ
  debug_logging : Bool
deriving DecidableEq, Repr

/-- The `DEFAULT_CONFIG` values from the source. -/
def defaultConfig : Config :=
  ⟨true, 5, 2, "100k", true, 30, 300, "weighted", 7/10, 3/10, false⟩

/-! ## Network monitor (`check_network_connectivity`, `is_network_available`)

The two probe attempts of `check_network_connectivity` are abstracted by the
booleans `probe1`/`probe2` (`True` = the `urlopen` succeeded, `False` = it
raised one of the caught error classes).  `is_network_available` is modelled
as a step function on the module state `(_network_available,
_last_network_check)`; the third component of the result counts how many
probes the call performed. -/

/-- The module-level network state: `_network_available`,
`_last_network_check`. -/
structure NetState where
  available : Bool
  lastCheck : ℚ
deriving DecidableEq, Repr

/-- The module-level constant `_network_check_interval = 30` (seconds).  Note
that `is_network_available` reads this constant, not the
`network_check_interval` configuration option. -/
def networkCheckIntervalGlobal : ℚ := 30

/-- Model of `check_network_connectivity`: first probe, then fallback probe; true on
the first success, false if both fail. -/
def check_network_connectivity (probe1 probe2 : Bool) : Bool :=
  if probe1 then true else if probe2 then true else false

/-- One call to `is_network_available` at time `now` in state `st`, where
`probe` is what `check_network_connectivity` would return if consulted.
Returns (returned value, new state, number of probes performed). -/
def is_network_available (probe : Bool) (now : ℚ) (st : NetState) : Bool × NetState × ℕ :=
  if now - st.lastCheck > networkCheckIntervalGlobal then
    (probe, ⟨probe, now⟩, 1)
  else
    (st.available, st, 0)

/-! ## Remote client (`_make_api_request`, `get_online_predictions`)

`_make_api_request` performs an HTTP request; its outcome is abstracted by
`ApiOutcome` (a successful 200 response with parsed JSON body, or one of the
error classes the function catches).  The JSON body is abstracted to its
`results` array, each element carrying the optional `text` and `word`
fields. -/

/-- One element of the `results` array of an API response. -/
structure ApiResult where
  text : Option String
  word : Option String
deriving DecidableEq, Repr

/-- The parsed JSON body of a successful response, abstracted to its
`results` array (`data.get("results", [])`). -/
abbrev ApiData := List ApiResult

/-- The possible outcomes of one `urlopen` + decode inside
`_make_api_request`. -/
inductive ApiOutcome where
  | ok (d : ApiData)
  | httpStatus (code : ℕ)
  | httpError (code : ℕ)
  | urlError
  | jsonError
  | otherError
deriving DecidableEq, Repr

/-- Model of `_make_api_request`: a 200 response yields its parsed body; a non-200
status and every caught exception (HTTP, URL, JSON decode, unexpected) yield
`None`.  Nothing propagates. -/
def mkApiRequest : ApiOutcome → Option ApiData
  | .ok d => some d
  | _ => none

/-- The `time.sleep(0.5)` between retry attempts: the slept duration in
seconds. -/
def retrySleepSeconds : ℚ := 1/2

/-- The retry loop of `get_online_predictions`: `remaining` further attempts
are allowed after the current one; `i` is the current attempt index.  Returns
(response, number of requests made, number of 0.5 s sleeps performed). -/
def retryLoop (oracle : ℕ → ApiOutcome) : ℕ → ℕ → Option ApiData × ℕ × ℕ
  | 0, i =>
    match mkApiRequest (oracle i) with
    | some d => (some d, 1, 0)
    | none => (none, 1, 0)
  | r + 1, i =>
    match mkApiRequest (oracle i) with
    | some d => (some d, 1, 0)
    | none =>
      let rest := retryLoop oracle r (i + 1)
      (rest.1, rest.2.1 + 1, rest.2.2 + 1)

/-- The loop `for attempt in range(max_retries + 1)` with a 0.5 s sleep after every
failed non-final attempt. -/
def runRetries (oracle : ℕ → ApiOutcome) (maxRetries : ℕ) : Option ApiData × ℕ × ℕ :=
  retryLoop oracle maxRetries 0

/-- Model of `_get_cache_key(left_context, prefix)`. -/
def cacheKey (leftContext pfx : String) : String := pyUpper (leftContext ++ "|" ++ pfx)

/-- The API result cache `_api_cache`: key ↦ (cached word list, timestamp). -/
abbrev Cache := List (String × (List String × ℚ))

/-- Extraction of the prediction words from a successful response:
`result.get("text", result.get("word", "")).upper()`, kept when non-empty and
at least 2 characters long. -/
def parseResults (d : ApiData) : List String :=
  d.foldl (fun preds r =>
    let w := pyUpper (r.text.getD (r.word.getD ""))
    if w ≠ "" ∧ 2 ≤ w.length then preds ++ [w] else preds) []

/-- First (leftmost) cache entry with minimal timestamp, accumulator form of
`min(_api_cache.keys(), key=lambda k: _api_cache[k][1])`. -/
def oldestPairAux (p : String × List String × ℚ) : Cache → String × List String × ℚ
  | [] => p
  | q :: rest => if q.2.2 < p.2.2 then oldestPairAux q rest else oldestPairAux p rest

/-- The globally-oldest cache entry (first of the minimal-timestamp entries in
iteration order, matching Python `min`). -/
def oldestPair : Cache → Option (String × List String × ℚ)
  | [] => none
  | p :: rest => some (oldestPairAux p rest)

/-- The result of one `get_online_predictions` call: the returned word list,
the new cache state, and the number of API requests / retry sleeps made. -/
structure GopResult where
  preds : List String
  cache : Cache
  requests : ℕ
  sleeps : ℕ
deriving DecidableEq, Repr

/-- The fetch-and-cache tail of `get_online_predictions` (after the network
check and the cache lookup): run the retry loop; on total failure return `[]`
without touching the cache; on success parse, store under `key` with
timestamp `now`, and if the cache then exceeds 100 entries evict the single
globally-oldest entry. -/
def gopFetch (cfg : Config) (oracle : ℕ → ApiOutcome) (cache : Cache) (now : ℚ)
    (key : String) : GopResult :=
  let r := runRetries oracle cfg.api_max_retries
  match r.1 with
  | none => ⟨[], cache, r.2.1, r.2.2⟩
  | some d =>
    let preds := parseResults d
    let c2 := dictSet cache key (preds, now)
    let c3 := if 100 < c2.length then
        match oldestPair c2 with
        | some p => dictDel c2 p.1
        | none => c2
      else c2
    ⟨preds, c3, r.2.1, r.2.2⟩

/-- Model of `get_online_predictions(left_context, prefix, num_suggestions)`.
`netCheck` is the outcome of the internal `is_network_available()` call:
`.error` models that call raising (caught here, returning `[]`), `.ok b`
models it returning `b`.  The requested count `min(num_suggestions, 10)` and
the other query parameters only shape the outbound URL, which the oracle
abstracts, so they do not appear. -/
def get_online_predictions (cfg : Config) (netCheck : Except Unit Bool)
    (oracle : ℕ → ApiOutcome) (cache : Cache) (now : ℚ) (leftContext pfx : String) :
    GopResult :=
  match netCheck with
  | .error _ => ⟨[], cache, 0, 0⟩
  | .ok false => ⟨[], cache, 0, 0⟩
  | .ok true =>
    let key := cacheKey leftContext pfx
    match lookupD cache key with
    | some (cachedData, ts) =>
      if now - ts < cfg.cache_ttl then ⟨cachedData, cache, 0, 0⟩
      else gopFetch cfg oracle (dictDel cache key) now key
    | none => gopFetch cfg oracle cache now key

/-! ## Merging (`merge_predictions` and the three strategies) -/

/-- The shared loop of `_merge_api_first` / `_merge_offline_first`: append
each unseen word; the length test runs only after an append, so a loop that
enters with a full accumulator still appends one word before stopping. -/
def mergeFill (n : ℕ) : List String → List String → List String
  | acc, [] => acc
  | acc, w :: rest =>
    if w ∈ acc then mergeFill n acc rest
    else
      let acc' := acc ++ [w]
      if n ≤ acc'.length then acc' else mergeFill n acc' rest

/-- Model of `_merge_api_first(offline_predictions, online_predictions, num_suggestions)`. -/
def merge_api_first (offline : List (String × ℚ)) (online : List String) (n : ℕ) :
    List String :=
  mergeFill n (mergeFill n [] online) (offline.map Prod.fst)

/-- Model of `_merge_offline_first(offline_predictions, online_predictions, num_suggestions)`. -/
def merge_offline_first (offline : List (String × ℚ)) (online : List String) (n : ℕ) :
    List String :=
  mergeFill n (mergeFill n [] (offline.map Prod.fst)) online

/-- Model of `max([score for _, score in offline_predictions], default=1)`. -/
def maxOffline : List ℚ → ℚ
  | [] => 1
  | x :: xs => xs.foldl max x

/-- The rank-based score of the remote candidate at zero-based position `i`
in a list of length `N`: `(N - i) / N` (`0` for an empty list, per the
guard in the source). -/
def apiRankScore (i N : ℕ) : ℚ := if N = 0 then 0 else ((N : ℚ) - (i : ℚ)) / (N : ℚ)

/-- The offline half of `_merge_weighted`: each offline candidate's score is
normalized by the maximum offline score (0 if that maximum is not positive)
and scaled by `offline_weight`. -/
def offlinePhase (oW : ℚ) (offs : List (String × ℚ)) : List (String × ℚ) :=
  let maxOff := maxOffline (offs.map Prod.snd)
  offs.foldl (fun d p =>
    dictSet d p.1 ((if 0 < maxOff then p.2 / maxOff else 0) * oW)) []

/-- The online half of `_merge_weighted`: each remote candidate at position
`i` adds `apiRankScore i N * api_weight` into the unified mapping. -/
def onlinePhase (aW : ℚ) (N : ℕ) : List String → ℕ → List (String × ℚ) → List (String × ℚ)
  | [], _, d => d
  | w :: rest, i, d => onlinePhase aW N rest (i + 1) (dictAdd d w (apiRankScore i N * aW))

/-- The unified score mapping built by `_merge_weighted`. -/
def unifiedScores (aW oW : ℚ) (offs : List (String × ℚ)) (ons : List String) :
    List (String × ℚ) :=
  onlinePhase aW ons.length ons 0 (offlinePhase oW offs)

/-- Model of `_merge_weighted(offline_predictions, online_predictions, num_suggestions)`. -/
def merge_weighted (aW oW : ℚ) (offs : List (String × ℚ)) (ons : List String) (n : ℕ) :
    List String :=
  ((sortDesc (unifiedScores aW oW offs ons)).take n).map Prod.fst

/-- Model of `merge_predictions`: dispatch on the configured strategy (`weighted` is
the default for any unrecognized value). -/
def merge_predictions (cfg : Config) (offline : List (String × ℚ)) (online : List String)
    (n : ℕ) : List String :=
  if cfg.merge_strategy = "api_first" then merge_api_first offline online n
  else if cfg.merge_strategy = "offline_first" then merge_offline_first offline online n
  else merge_weighted cfg.api_weight cfg.offline_weight offline online n

/-! ## Façade (`get_predictive_suggestions`) -/

/-- The context/prefix split performed by the façade before calling the
remote client (source lines 319–332). -/
def parseContextPfx (text : String) : String × String :=
  let hts := hasTrailingSpace text
  let cleaned := cleanText text
  let words := splitWs cleaned
  if hts then (cleaned, "")
  else if words ≠ [] then (String.intercalate " " words.dropLast, words.getLastD "")
  else ("", "")

/-- The `try`/`except` region of the façade (source lines 335–356), with the
value (or exception) produced inside the `try` abstracted by `outcome`:
a raised exception or an empty remote list both fall back to the offline
words; a non-empty remote list is merged. -/
def gpsTryRegion (cfg : Config) (offline : List (String × ℚ))
    (outcome : Except Unit (List String)) (n : ℕ) : List String :=
  match outcome with
  | .error _ => offline.map Prod.fst
  | .ok online =>
    if online ≠ [] then merge_predictions cfg offline online n
    else offline.map Prod.fst

/-- Model of `get_predictive_suggestions(text, num_suggestions)`.  `textOpt = none`
models `text is None` (replaced by `""`).  `netFacade` is the value of the
façade's own `is_network_available()` call; `gopNet` and `oracle` feed the
remote client.  Returns the suggestion list and the new API cache. -/
def get_predictive_suggestions (cfg : Config) (store : Store) (now : ℚ)
    (netFacade : Bool) (gopNet : Except Unit Bool) (oracle : ℕ → ApiOutcome)
    (cache : Cache) (textOpt : Option String) (n : ℕ) : List String × Cache :=
  let text := textOpt.getD ""
  let useOnline := cfg.online_mode_enabled && netFacade
  let offline := get_offline_predictions_with_scores store now text n
  if useOnline = false then (offline.map Prod.fst, cache)
  else
    let lp := parseContextPfx text
    let r := get_online_predictions cfg gopNet oracle cache now lp.1 lp.2
    (gpsTryRegion cfg offline (Except.ok r.preds) n, r.cache)

/-! ## Specification-side definitions

These two definitions follow the words of the specification (not the source)
and are compared with the source-derived definitions in the theorems below. -/

/-- Modelled from the spec (§4.5, priority interleave): take words while
fewer than `n` have been collected, skipping duplicates. -/
def specTake (n : ℕ) : List String → List String → List String
  | acc, [] => acc
  | acc, w :: rest =>
    if n ≤ acc.length then acc
    else if w ∈ acc then specTake n acc rest
    else specTake n (acc ++ [w]) rest

/-- Modelled from the spec (§4.5): take all words from the prioritized source
in order (deduplicating), then fill remaining slots from the other source,
until `maxSuggestions` reached. -/
def specFill (prioritized other : List String) (n : ℕ) : List String :=
  specTake n (specTake n [] prioritized) other

/-- Modelled from the spec (§4.5, `weighted`): the offline contribution of a
word — its score divided by the maximum offline score (0 if that maximum is
not positive), times `offlineWeight`. -/
def claimOfflineContrib (oW : ℚ) (offs : List (String × ℚ)) (w : String) : ℚ :=
  match offs.find? (fun p => p.1 = w) with
  | some p =>
    (if 0 < maxOffline (offs.map Prod.snd) then p.2 / maxOffline (offs.map Prod.snd) else 0) * oW
  | none => 0

/-- Modelled from the spec (§4.5, `weighted`): the remote contribution of a
word — `(N - i) / N` for zero-based position `i` in a remote list of length
`N`, times `apiWeight`. -/
def claimApiContrib (aW : ℚ) (ons : List String) (w : String) : ℚ :=
  match posOf ons w with
  | some i => (((ons.length : ℚ) - (i : ℚ)) / (ons.length : ℚ)) * aW
  | none => 0

/-- Modelled from the spec (§4.5, `weighted`): the combined score — the two
contributions add when a word appears in both sources. -/
def claimScore (aW oW : ℚ) (offs : List (String × ℚ)) (ons : List String) (w : String) : ℚ :=
  claimOfflineContrib oW offs w + claimApiContrib aW ons w

/-! ## Basic dictionary lemmas -/

theorem lookupD_dictSet {β : Type} (d : List (String × β)) (k : String) (v : β) (w : String) :
    lookupD (dictSet d k v) w = if w = k then some v else lookupD d w := by
  induction d with
  | nil =>
    by_cases h : w = k
    · subst h; simp [dictSet, lookupD]
    · simp [dictSet, lookupD, h, Ne.symm h]
  | cons p rest ih =>
    obtain ⟨k0, v0⟩ := p
    by_cases h0 : k0 = k
    · subst h0
      by_cases hw : w = k0
      · subst hw; simp [dictSet, lookupD]
      · simp [dictSet, lookupD, hw, Ne.symm hw]
    · by_cases hw : k0 = w
      · subst hw
        simp [dictSet, lookupD, h0, Ne.symm h0]
      · simp [dictSet, lookupD, h0, hw, ih]

theorem lookupD_dictSet_self {β : Type} (d : List (String × β)) (k : String) (v : β) :
    lookupD (dictSet d k v) k = some v := by
  simp [lookupD_dictSet]

theorem keys_dictSet {β : Type} (d : List (String × β)) (k : String) (v : β) :
    (dictSet d k v).map Prod.fst
      = if k ∈ d.map Prod.fst then d.map Prod.fst else d.map Prod.fst ++ [k] := by
  induction d with
  | nil => simp [dictSet]
  | cons p rest ih =>
    obtain ⟨k0, v0⟩ := p
    by_cases h0 : k0 = k
    · subst h0
      simp [dictSet]
    · have hne : k ≠ k0 := Ne.symm h0
      by_cases hm : k ∈ rest.map Prod.fst
      · simp [dictSet, h0, ih, hm, hne]
      · simp [dictSet, h0, ih, hm, hne]

theorem nodup_keys_dictSet {β : Type} (d : List (String × β)) (k : String) (v : β)
    (h : (d.map Prod.fst).Nodup) : ((dictSet d k v).map Prod.fst).Nodup := by
  rw [keys_dictSet]
  by_cases hm : k ∈ d.map Prod.fst
  · simpa [hm] using h
  · simp [hm, List.nodup_append, h]

theorem length_dictSet_le {β : Type} (d : List (String × β)) (k : String) (v : β) :
    (dictSet d k v).length ≤ d.length + 1 := by
  induction d with
  | nil => simp [dictSet]
  | cons p rest ih =>
    by_cases h0 : p.1 = k
    · simp [dictSet, h0]
    · simpa [dictSet, h0] using ih

theorem lookupD_eq_some_of_mem {β : Type} : ∀ {d : List (String × β)} {w : String} {s : β},
    (d.map Prod.fst).Nodup → (w, s) ∈ d → lookupD d w = some s := by
  intro d
  induction d with
  | nil => intro w s _ hm; simp at hm
  | cons p rest ih =>
    intro w s hnd hm
    obtain ⟨k0, v0⟩ := p
    rcases List.mem_cons.mp hm with hm | hm
    · have h1 : w = k0 := congrArg Prod.fst hm
      have h2 : s = v0 := congrArg Prod.snd hm
      subst h1; subst h2
      simp [lookupD]
    · have hk : w ∈ rest.map Prod.fst := List.mem_map_of_mem Prod.fst hm
      have hne : k0 ≠ w := by
        intro hh; subst hh
        exact (List.nodup_cons.mp hnd).1 hk
      simp only [lookupD, if_neg hne]
      exact ih (List.nodup_cons.mp hnd).2 hm

theorem mem_of_lookupD_eq_some {β : Type} : ∀ {d : List (String × β)} {w : String} {s : β},
    lookupD d w = some s → (w, s) ∈ d := by
  intro d
  induction d with
  | nil => intro w s h; exact absurd h (by simp [lookupD])
  | cons p rest ih =>
    intro w s h
    obtain ⟨k0, v0⟩ := p
    by_cases hk : k0 = w
    · subst hk
      have hv : v0 = s := by simpa [lookupD] using h
      subst hv
      exact List.mem_cons_self _ _
    · have h' : lookupD rest w = some s := by simpa [lookupD, hk] using h
      exact List.mem_cons_of_mem _ (ih h')

theorem lookupD_isSome_iff_mem_keys {β : Type} (d : List (String × β)) (w : String) :
    (lookupD d w).isSome ↔ w ∈ d.map Prod.fst := by
  induction d with
  | nil => simp [lookupD]
  | cons p rest ih =>
    obtain ⟨k0, v0⟩ := p
    by_cases hk : k0 = w
    · subst hk
      simp [lookupD]
    · simp [lookupD, hk, ih, Ne.symm hk]

theorem lookupD_dictDel_self {β : Type} (d : List (String × β)) (k : String) :
    lookupD (dictDel d k) k = none := by
  induction d with
  | nil => rfl
  | cons p rest ih =>
    by_cases h0 : p.1 = k
    · simpa [dictDel, h0] using ih
    · obtain ⟨k0, v0⟩ := p
      simp only at h0
      simpa [dictDel, lookupD, h0] using ih

/-! ## Claim C2: the network-check interval -/

/-- Claim C2 (as stated) is false: `is_network_available` compares against the
module constant `_network_check_interval = 30`, not the configured
`network_check_interval` option.  With the option configured to 100 seconds, a
call 60 seconds after the last probe is within the configured interval yet
performs a fresh probe (and can return a different value than the cached one). -/
theorem network_interval_ignores_config_counterexample :
    ¬ (∀ (cfg : Config) (probe : Bool) (now : ℚ) (st : NetState),
        now - st.lastCheck ≤ cfg.network_check_interval →
        is_network_available probe now st = (st.available, st, 0)) := by
  intro h
  have h2 := h ⟨true, 5, 2, "100k", true, 100, 300, "weighted", 7/10, 3/10, false⟩
      true 60 ⟨false, 0⟩ (by norm_num)
  exact absurd h2 (by with_unfolding_all decide)

/-- Claim C2 (amended): the probe throttle interval is the fixed module
constant of 30 seconds (which coincides with the `network_check_interval`
default, but is not read from the configuration).  A call within 30 seconds
of the last probe performs no probe and returns the cached value unchanged. -/
theorem network_probe_fixed_interval (probe : Bool) (now : ℚ) (st : NetState)
    (h : now - st.lastCheck ≤ networkCheckIntervalGlobal) :
    is_network_available probe now st = (st.available, st, 0)
    ∧ networkCheckIntervalGlobal = 30 ∧ defaultConfig.network_check_interval = 30 := by
  refine ⟨?_, rfl, rfl⟩
  unfold is_network_available
  rw [if_neg (not_lt.mpr h)]

/-- Witness for `network_probe_fixed_interval` at a concrete state. -/
theorem network_probe_fixed_interval_witness :
    is_network_available true 20 ⟨true, 0⟩ = (true, ⟨true, 0⟩, 0)
    ∧ networkCheckIntervalGlobal = 30 ∧ defaultConfig.network_check_interval = 30 :=
  network_probe_fixed_interval true 20 ⟨true, 0⟩ (by with_unfolding_all decide)

/-! ## Claim C9: the stepped recency bonus -/

/-- Claim C9: both scoring functions add +10000 for entries used within the
last hour, +5000 within the last 7 days, and +0 otherwise; with equal counts
(and everything else identical), an entry last used 30 minutes ago strictly
outranks one last used 10 days ago, under both scoring functions. -/
theorem recency_bonus_spec :
    (∀ td : ℚ, td < 3600 → recencyBonus td = 10000)
  ∧ (∀ td : ℚ, 3600 ≤ td → td < 604800 → recencyBonus td = 5000)
  ∧ (∀ td : ℚ, 604800 ≤ td → recencyBonus td = 0)
  ∧ (∀ (now : ℚ) (e1 e2 : Entry) (k cand cur : String),
      e1.count = e2.count → now - e1.lastUsed = 1800 → now - e2.lastUsed = 864000 →
      compute_ngram_score now e2 k cand cur < compute_ngram_score now e1 k cand cur
      ∧ compute_freq_score now e2 < compute_freq_score now e1) := by
  refine ⟨?_, ?_, ?_, ?_⟩
  · intro td h; simp [recencyBonus, h]
  · intro td h1 h2
    rw [recencyBonus, if_neg (not_lt.mpr h1), if_pos h2]
  · intro td h
    rw [recencyBonus, if_neg (not_lt.mpr (by linarith)), if_neg (not_lt.mpr h)]
  · intro now e1 e2 k cand cur hc h1 h2
    have hb1 : recencyBonus 1800 = 10000 := by norm_num [recencyBonus]
    have hb2 : recencyBonus 864000 = 0 := by norm_num [recencyBonus]
    have hr : (1 : ℚ) / (864000 + 1) < 1 / (1800 + 1) := by norm_num
    constructor
    · simp only [compute_ngram_score, h1, h2, hc, hb1, hb2]
      by_cases hk : k = "trigrams" <;> simp only [hk, if_true, if_false, reduceIte] <;>
        linarith [hr]
    · simp only [compute_freq_score, h1, h2, hc, hb1, hb2]
      linarith [hr]

/-- Witness for `recency_bonus_spec`: an entry used 30 minutes ago (at
`now = 864000`, `lastUsed = 862200`) outranks one used 10 days ago
(`lastUsed = 0`), with equal counts. -/
theorem recency_bonus_spec_witness :
    compute_ngram_score 864000 ⟨4, 0⟩ "trigrams" "WORLD" "WO"
      < compute_ngram_score 864000 ⟨4, 862200⟩ "trigrams" "WORLD" "WO"
    ∧ compute_freq_score 864000 ⟨4, 0⟩ < compute_freq_score 864000 ⟨4, 862200⟩ :=
  recency_bonus_spec.2.2.2 864000 ⟨4, 862200⟩ ⟨4, 0⟩ "trigrams" "WORLD" "WO"
    rfl (by norm_num) (by norm_num)

/-! ## Retry-loop lemmas -/

theorem retryLoop_requests_le (oracle : ℕ → ApiOutcome) :
    ∀ r i, (retryLoop oracle r i).2.1 ≤ r + 1 := by
  intro r
  induction r with
  | zero =>
    intro i
    unfold retryLoop
    cases mkApiRequest (oracle i) <;> simp
  | succ r ih =>
    intro i
    unfold retryLoop
    cases h : mkApiRequest (oracle i) with
    | some d => simp
    | none =>
      simp only [h]
      have := ih (i + 1)
      omega

theorem retryLoop_requests_pos (oracle : ℕ → ApiOutcome) (r i : ℕ) :
    1 ≤ (retryLoop oracle r i).2.1 := by
  cases r <;> unfold retryLoop <;> cases h : mkApiRequest (oracle i) <;> simp [h]

theorem retryLoop_first_success (oracle : ℕ → ApiOutcome) :
    ∀ (j r i : ℕ) (d : ApiData), j ≤ r →
      (∀ k, k < j → mkApiRequest (oracle (i + k)) = none) →
      mkApiRequest (oracle (i + j)) = some d →
      retryLoop oracle r i = (some d, j + 1, j) := by
  intro j
  induction j with
  | zero =>
    intro r i d _ _ hs
    rw [Nat.add_zero] at hs
    cases r <;> (unfold retryLoop; simp [hs])
  | succ j ih =>
    intro r i d hle hfail hs
    obtain ⟨r', rfl⟩ : ∃ r', r = r' + 1 := ⟨r - 1, by omega⟩
    have h0 : mkApiRequest (oracle i) = none := by
      have := hfail 0 (by omega)
      simpa using this
    have ih2 := ih r' (i + 1) d (by omega)
      (fun k hk => by
        have := hfail (k + 1) (by omega)
        simpa [Nat.add_comm, Nat.add_assoc, Nat.add_left_comm] using this)
      (by
        have he : i + 1 + j = i + (j + 1) := by omega
        rw [he]; exact hs)
    unfold retryLoop
    simp [h0, ih2]

theorem retryLoop_all_fail (oracle : ℕ → ApiOutcome) :
    ∀ r i, (∀ k, k ≤ r → mkApiRequest (oracle (i + k)) = none) →
      retryLoop oracle r i = (none, r + 1, r) := by
  intro r
  induction r with
  | zero =>
    intro i h
    have h0 := h 0 (by omega)
    rw [Nat.add_zero] at h0
    unfold retryLoop
    simp [h0]
  | succ r ih =>
    intro i h
    have h0 := h 0 (by omega)
    rw [Nat.add_zero] at h0
    have ih2 := ih (i + 1) (fun k hk => by
      have := h (k + 1) (by omega)
      simpa [Nat.add_comm, Nat.add_assoc, Nat.add_left_comm] using this)
    unfold retryLoop
    simp [h0, ih2]

/-! ## Claim C4: the retry policy of the remote fetch -/

/-- Claim C4: the remote fetch makes up to `api_max_retries + 1` attempts with
a 0.5-second sleep between attempts (one sleep per failed non-final attempt),
stops at the first attempt returning a non-null structured response, and
treats every transport, decode or unexpected error as a failed attempt; with
`api_max_retries = 2`, an endpoint failing twice then succeeding yields the
parsed (non-empty, if the response has usable words) result after 3 requests,
and one that always fails yields `[]` after exactly 3 requests. -/
theorem retry_policy_spec (oracle : ℕ → ApiOutcome) (maxRetries : ℕ) :
    (∀ c, mkApiRequest (ApiOutcome.httpStatus c) = none
       ∧ mkApiRequest (ApiOutcome.httpError c) = none)
  ∧ mkApiRequest ApiOutcome.urlError = none
  ∧ mkApiRequest ApiOutcome.jsonError = none
  ∧ mkApiRequest ApiOutcome.otherError = none
  ∧ retrySleepSeconds = 1/2
  ∧ (runRetries oracle maxRetries).2.1 ≤ maxRetries + 1
  ∧ (∀ j d, j ≤ maxRetries →
      (∀ i, i < j → mkApiRequest (oracle i) = none) →
      mkApiRequest (oracle j) = some d →
      runRetries oracle maxRetries = (some d, j + 1, j))
  ∧ ((∀ i, i ≤ maxRetries → mkApiRequest (oracle i) = none) →
      runRetries oracle maxRetries = (none, maxRetries + 1, maxRetries))
  ∧ (∀ (cfg : Config) (cache : Cache) (now : ℚ) (key : String) (d : ApiData),
      cfg.api_max_retries = 2 →
      (∀ i, i < 2 → mkApiRequest (oracle i) = none) →
      mkApiRequest (oracle 2) = some d →
      (gopFetch cfg oracle cache now key).preds = parseResults d
      ∧ (gopFetch cfg oracle cache now key).requests = 3)
  ∧ (∀ (cfg : Config) (cache : Cache) (now : ℚ) (key : String),
      cfg.api_max_retries = 2 →
      (∀ i, mkApiRequest (oracle i) = none) →
      gopFetch cfg oracle cache now key = ⟨[], cache, 3, 2⟩) := by
  refine ⟨fun c => ⟨rfl, rfl⟩, rfl, rfl, rfl, rfl, retryLoop_requests_le oracle maxRetries 0,
    ?_, ?_, ?_, ?_⟩
  · intro j d hj hfail hs
    exact retryLoop_first_success oracle j maxRetries 0 d hj
      (fun k hk => by simpa using hfail k hk) (by simpa using hs)
  · intro hfail
    exact retryLoop_all_fail oracle maxRetries 0 (fun k hk => by simpa using hfail k hk)
  · intro cfg cache now key d hmr hfail hs
    have hrun : runRetries oracle cfg.api_max_retries = (some d, 3, 2) := by
      rw [hmr]
      exact retryLoop_first_success oracle 2 2 0 d (le_refl 2)
        (fun k hk => by simpa using hfail k hk) (by simpa using hs)
    constructor <;> simp [gopFetch, hrun]
  · intro cfg cache now key hmr hfail
    have hrun : runRetries oracle cfg.api_max_retries = (none, 3, 2) := by
      rw [hmr]
      exact retryLoop_all_fail oracle 2 0 (fun k _ => hfail (0 + k))
    simp [gopFetch, hrun]

/-- Witness for `retry_policy_spec`: an always-failing endpoint with the
default configuration (2 retries) yields `[]` after exactly 3 requests and
2 sleeps. -/
theorem retry_policy_spec_witness :
    gopFetch defaultConfig (fun _ => ApiOutcome.urlError) [] 0 "K" = ⟨[], [], 3, 2⟩ :=
  (retry_policy_spec (fun _ => ApiOutcome.urlError) 2).2.2.2.2.2.2.2.2.2
    defaultConfig [] 0 "K" rfl (fun _ => rfl)

/-! ## Claim C3: remote failures degrade to the offline result -/

/-- Claim C3: every exception raised inside the remote region — the remote
client's internal network check (`.error` fed to `get_online_predictions`),
the request/parse (absorbed into `_make_api_request`/the oracle), or the
merge (the `try` region outcome `.error`) — is caught, and the façade
returns exactly the offline word list, which is computed unconditionally as
the fallback. -/
theorem remote_exceptions_degrade_to_offline (cfg : Config) (store : Store) (now : ℚ)
    (netFacade : Bool) (oracle : ℕ → ApiOutcome) (cache : Cache) (textOpt : Option String)
    (n : ℕ) (leftContext pfx : String) :
    (∀ (e : Unit) (offline : List (String × ℚ)),
      gpsTryRegion cfg offline (Except.error e) n = offline.map Prod.fst)
  ∧ (∀ e : Unit, get_online_predictions cfg (Except.error e) oracle cache now leftContext pfx
      = ⟨[], cache, 0, 0⟩)
  ∧ (get_predictive_suggestions cfg store now netFacade (Except.error ()) oracle cache
        textOpt n).1
      = (get_offline_predictions_with_scores store now (textOpt.getD "") n).map Prod.fst := by
  refine ⟨fun e offline => rfl, fun e => rfl, ?_⟩
  unfold get_predictive_suggestions
  by_cases h : (cfg.online_mode_enabled && netFacade) = false
  · simp [h]
  · simp [h, get_online_predictions, gpsTryRegion]

/-! ## Claim C10: failed fetches are never negatively cached -/

/-- Claim C10: when every attempt of a remote fetch fails,
`get_online_predictions` returns `[]` and writes no cache entry for the key
(a missing key stays missing and the cache is untouched; a stale entry is
evicted but not replaced), so an immediately following fetch for the same key
attempts the network again (full retry budget) instead of hitting a cached
failure. -/
theorem failed_fetch_never_cached (cfg : Config) (oracle : ℕ → ApiOutcome) (cache : Cache)
    (now now2 : ℚ) (leftContext pfx : String)
    (hfail : ∀ i, mkApiRequest (oracle i) = none) :
    (lookupD cache (cacheKey leftContext pfx) = none →
      get_online_predictions cfg (Except.ok true) oracle cache now leftContext pfx
        = ⟨[], cache, cfg.api_max_retries + 1, cfg.api_max_retries⟩
      ∧ (get_online_predictions cfg (Except.ok true) oracle
          ((get_online_predictions cfg (Except.ok true) oracle cache now leftContext pfx).cache)
          now2 leftContext pfx).requests = cfg.api_max_retries + 1)
  ∧ (∀ v ts, lookupD cache (cacheKey leftContext pfx) = some (v, ts) →
      cfg.cache_ttl ≤ now - ts →
      (get_online_predictions cfg (Except.ok true) oracle cache now leftContext pfx).preds = []
      ∧ lookupD
          ((get_online_predictions cfg (Except.ok true) oracle cache now leftContext pfx).cache)
          (cacheKey leftContext pfx) = none) := by
  have hrun : runRetries oracle cfg.api_max_retries
      = (none, cfg.api_max_retries + 1, cfg.api_max_retries) :=
    retryLoop_all_fail oracle cfg.api_max_retries 0 (fun k _ => hfail (0 + k))
  have hfetch : ∀ (c : Cache) (t : ℚ) (key : String),
      gopFetch cfg oracle c t key = ⟨[], c, cfg.api_max_retries + 1, cfg.api_max_retries⟩ := by
    intro c t key
    simp [gopFetch, hrun]
  refine ⟨?_, ?_⟩
  · intro hmiss
    have h1 : get_online_predictions cfg (Except.ok true) oracle cache now leftContext pfx
        = ⟨[], cache, cfg.api_max_retries + 1, cfg.api_max_retries⟩ := by
      unfold get_online_predictions
      simp only [hmiss]
      exact hfetch cache now _
    refine ⟨h1, ?_⟩
    rw [h1]
    unfold get_online_predictions
    simp only [hmiss]
    rw [hfetch cache now2 _]
  · intro v ts hhit hstale
    unfold get_online_predictions
    simp only [hhit]
    rw [if_neg (not_lt.mpr hstale)]
    rw [hfetch _ now _]
    exact ⟨rfl, lookupD_dictDel_self cache (cacheKey leftContext pfx)⟩

/-- Witness for `failed_fetch_never_cached`: an always-failing endpoint with
the default configuration leaves an empty cache empty and spends the full
retry budget. -/
theorem failed_fetch_never_cached_witness :
    get_online_predictions defaultConfig (Except.ok true) (fun _ => ApiOutcome.urlError)
      [] 0 "HELLO" "WO" = ⟨[], [], 3, 2⟩ :=
  ((failed_fetch_never_cached defaultConfig (fun _ => ApiOutcome.urlError) [] 0 0 "HELLO" "WO"
      (fun _ => rfl)).1 rfl).1

/-! ## Cache lemmas -/

theorem length_dictSet_of_not_mem {β : Type} : ∀ (d : List (String × β)) (k : String) (v : β),
    k ∉ d.map Prod.fst → (dictSet d k v).length = d.length + 1 := by
  intro d
  induction d with
  | nil => intro k v _; simp [dictSet]
  | cons p rest ih =>
    intro k v h
    obtain ⟨k0, v0⟩ := p
    have h1 : k0 ≠ k := by
      intro he; exact h (by simp [he])
    have h2 : k ∉ rest.map Prod.fst := fun hm => h (by simp [hm])
    simp [dictSet, h1, ih k v h2]

theorem length_dictSet_of_mem {β : Type} : ∀ (d : List (String × β)) (k : String) (v : β),
    k ∈ d.map Prod.fst → (dictSet d k v).length = d.length := by
  intro d
  induction d with
  | nil => intro k v h; simp at h
  | cons p rest ih =>
    intro k v h
    obtain ⟨k0, v0⟩ := p
    by_cases h1 : k0 = k
    · simp [dictSet, h1]
    · have h2 : k ∈ rest.map Prod.fst := by
        rcases List.mem_map.mp h with ⟨q, hq, hq1⟩
        rcases List.mem_cons.mp hq with rfl | hq
        · exact absurd hq1 h1
        · exact List.mem_map.mpr ⟨q, hq, hq1⟩
      simp [dictSet, h1, ih k v h2]

theorem dictDel_of_not_mem {β : Type} : ∀ (d : List (String × β)) (k : String),
    k ∉ d.map Prod.fst → dictDel d k = d := by
  intro d
  induction d with
  | nil => intro k _; rfl
  | cons p rest ih =>
    intro k h
    have h1 : p.1 ≠ k := by
      intro he; exact h (by simp [he])
    have h2 : k ∉ rest.map Prod.fst := fun hm => h (by simp [hm])
    simp only [dictDel, List.filter_cons]
    rw [if_pos (by simpa using h1)]
    exact congrArg _ (ih k h2)

theorem length_dictDel_of_mem {β : Type} : ∀ (d : List (String × β)) (k : String),
    (d.map Prod.fst).Nodup → k ∈ d.map Prod.fst →
    (dictDel d k).length + 1 = d.length := by
  intro d
  induction d with
  | nil => intro k _ h; simp at h
  | cons p rest ih =>
    intro k hnd h
    obtain ⟨k0, v0⟩ := p
    have hnd2 : (k0 :: rest.map Prod.fst).Nodup := by simpa using hnd
    have hhead : k0 ∉ rest.map Prod.fst := (List.nodup_cons.mp hnd2).1
    have htail : (rest.map Prod.fst).Nodup := (List.nodup_cons.mp hnd2).2
    by_cases h1 : k0 = k
    · subst h1
      have hdel : dictDel rest k0 = rest := dictDel_of_not_mem rest k0 hhead
      simp only [dictDel, List.filter_cons] at hdel ⊢
      rw [if_neg (by simp)]
      rw [hdel]
      simp
    · have h2 : k ∈ rest.map Prod.fst := by
        rcases List.mem_map.mp h with ⟨q, hq, hq1⟩
        rcases List.mem_cons.mp hq with rfl | hq
        · exact absurd hq1 h1
        · exact List.mem_map.mpr ⟨q, hq, hq1⟩
      have hr := ih k htail h2
      simp only [dictDel, List.filter_cons] at hr ⊢
      rw [if_pos (by simpa using h1)]
      simp only [List.length_cons]
      omega

theorem oldestPairAux_spec : ∀ (l : Cache) (p : String × List String × ℚ),
    (oldestPairAux p l = p ∨ oldestPairAux p l ∈ l)
    ∧ (oldestPairAux p l).2.2 ≤ p.2.2
    ∧ ∀ q ∈ l, (oldestPairAux p l).2.2 ≤ q.2.2 := by
  intro l
  induction l with
  | nil => intro p; exact ⟨Or.inl rfl, le_refl _, by simp⟩
  | cons q rest ih =>
    intro p
    unfold oldestPairAux
    by_cases h : q.2.2 < p.2.2
    · rw [if_pos h]
      obtain ⟨hm, hle, hall⟩ := ih q
      refine ⟨?_, le_trans hle (le_of_lt h), ?_⟩
      · rcases hm with hm | hm
        · exact Or.inr (by rw [hm]; exact List.mem_cons_self _ _)
        · exact Or.inr (List.mem_cons_of_mem _ hm)
      · intro r hr
        rcases List.mem_cons.mp hr with rfl | hr
        · exact hle
        · exact hall r hr
    · rw [if_neg h]
      obtain ⟨hm, hle, hall⟩ := ih p
      refine ⟨?_, hle, ?_⟩
      · rcases hm with hm | hm
        · exact Or.inl hm
        · exact Or.inr (List.mem_cons_of_mem _ hm)
      · intro r hr
        rcases List.mem_cons.mp hr with rfl | hr
        · exact le_trans hle (not_lt.mp h)
        · exact hall r hr

theorem oldestPair_spec (c : Cache) (hne : c ≠ []) :
    ∃ p, oldestPair c = some p ∧ p ∈ c ∧ ∀ q ∈ c, p.2.2 ≤ q.2.2 := by
  cases c with
  | nil => exact absurd rfl hne
  | cons q rest =>
    obtain ⟨hm, hle, hall⟩ := oldestPairAux_spec rest q
    refine ⟨oldestPairAux q rest, rfl, ?_, ?_⟩
    · rcases hm with hm | hm
      · rw [hm]; exact List.mem_cons_self _ _
      · exact List.mem_cons_of_mem _ hm
    · intro r hr
      rcases List.mem_cons.mp hr with rfl | hr
      · exact hle
      · exact hall r hr

theorem gopFetch_requests (cfg : Config) (oracle : ℕ → ApiOutcome) (cache : Cache)
    (now : ℚ) (key : String) :
    (gopFetch cfg oracle cache now key).requests = (runRetries oracle cfg.api_max_retries).2.1 := by
  rcases h : runRetries oracle cfg.api_max_retries with ⟨a, b, c⟩
  cases a <;> simp [gopFetch, h]

/-! ## Claim C5: remote-fetch caching by normalized key and TTL -/

/-- Claim C5: a cache entry younger than `cache_ttl` is returned with no API
request and an unchanged cache; a stale hit is evicted and a fresh fetch
proceeds (at least one API request); concretely, with a first-try-success
endpoint, two fetches for the same `(leftContext, prefix)` within the TTL
issue exactly one API request in total (1 then 0, the second served from the
cache), and a third call after TTL expiry issues a new API request. -/
theorem cache_ttl_spec (cfg : Config) (oracle : ℕ → ApiOutcome) (cache : Cache)
    (now now2 now3 : ℚ) (leftContext pfx : String) :
    (∀ v ts, lookupD cache (cacheKey leftContext pfx) = some (v, ts) →
      now - ts < cfg.cache_ttl →
      get_online_predictions cfg (Except.ok true) oracle cache now leftContext pfx
        = ⟨v, cache, 0, 0⟩)
  ∧ (∀ v ts, lookupD cache (cacheKey leftContext pfx) = some (v, ts) →
      cfg.cache_ttl ≤ now - ts →
      get_online_predictions cfg (Except.ok true) oracle cache now leftContext pfx
        = gopFetch cfg oracle (dictDel cache (cacheKey leftContext pfx)) now
            (cacheKey leftContext pfx)
      ∧ 1 ≤ (get_online_predictions cfg (Except.ok true) oracle cache now
          leftContext pfx).requests)
  ∧ (∀ d : ApiData, lookupD cache (cacheKey leftContext pfx) = none →
      mkApiRequest (oracle 0) = some d →
      cache.length < 100 →
      (get_online_predictions cfg (Except.ok true) oracle cache now leftContext pfx).requests = 1
      ∧ (now2 - now < cfg.cache_ttl →
          get_online_predictions cfg (Except.ok true) oracle
            ((get_online_predictions cfg (Except.ok true) oracle cache now leftContext pfx).cache)
            now2 leftContext pfx
          = ⟨parseResults d,
             (get_online_predictions cfg (Except.ok true) oracle cache now leftContext pfx).cache,
             0, 0⟩)
      ∧ (cfg.cache_ttl ≤ now3 - now →
          (get_online_predictions cfg (Except.ok true) oracle
            ((get_online_predictions cfg (Except.ok true) oracle cache now leftContext pfx).cache)
            now3 leftContext pfx).requests = 1)) := by
  refine ⟨?_, ?_, ?_⟩
  · intro v ts hhit hfresh
    unfold get_online_predictions
    simp only [hhit]
    rw [if_pos hfresh]
  · intro v ts hhit hstale
    constructor
    · unfold get_online_predictions
      simp only [hhit]
      rw [if_neg (not_lt.mpr hstale)]
    · unfold get_online_predictions
      simp only [hhit]
      rw [if_neg (not_lt.mpr hstale)]
      have hp := retryLoop_requests_pos oracle cfg.api_max_retries 0
      rw [gopFetch_requests]
      exact hp
  · intro d hmiss hsucc hlen
    have hrun : runRetries oracle cfg.api_max_retries = (some d, 1, 0) :=
      retryLoop_first_success oracle 0 cfg.api_max_retries 0 d (Nat.zero_le _)
        (fun k hk => absurd hk (by omega)) (by simpa using hsucc)
    have hc2 : ¬ (100 < (dictSet cache (cacheKey leftContext pfx)
        (parseResults d, now)).length) := by
      have := length_dictSet_le cache (cacheKey leftContext pfx) (parseResults d, now)
      omega
    have h1 : get_online_predictions cfg (Except.ok true) oracle cache now leftContext pfx
        = ⟨parseResults d,
           dictSet cache (cacheKey leftContext pfx) (parseResults d, now), 1, 0⟩ := by
      unfold get_online_predictions
      simp only [hmiss]
      simp only [gopFetch, hrun]
      rw [if_neg hc2]
    refine ⟨by rw [h1], ?_, ?_⟩
    · intro hfresh
      rw [h1]
      unfold get_online_predictions
      simp only [lookupD_dictSet_self]
      rw [if_pos hfresh]
    · intro hstale3
      rw [h1]
      unfold get_online_predictions
      simp only [lookupD_dictSet_self]
      rw [if_neg (not_lt.mpr hstale3)]
      rw [gopFetch_requests]
      rw [hrun]

/-- Witness for `cache_ttl_spec`: with a first-try-success endpoint and an
empty cache, the first fetch issues one API request and a second fetch one
second later (within the 300 s default TTL) is served from the cache with
zero requests. -/
theorem cache_ttl_spec_witness :
    (get_online_predictions defaultConfig (Except.ok true)
      (fun _ => ApiOutcome.ok [⟨some "HI", none⟩]) [] 0 "A" "B").requests = 1
    ∧ get_online_predictions defaultConfig (Except.ok true)
        (fun _ => ApiOutcome.ok [⟨some "HI", none⟩])
        ((get_online_predictions defaultConfig (Except.ok true)
          (fun _ => ApiOutcome.ok [⟨some "HI", none⟩]) [] 0 "A" "B").cache)
        1 "A" "B"
      = ⟨parseResults [⟨some "HI", none⟩],
         (get_online_predictions defaultConfig (Except.ok true)
           (fun _ => ApiOutcome.ok [⟨some "HI", none⟩]) [] 0 "A" "B").cache, 0, 0⟩ := by
  have h := (cache_ttl_spec defaultConfig (fun _ => ApiOutcome.ok [⟨some "HI", none⟩])
      [] 0 1 2 "A" "B").2.2 [⟨some "HI", none⟩] rfl rfl (by simp)
  exact ⟨h.1, h.2.1 (by with_unfolding_all decide)⟩

/-! ## Claim C6: cache write and capped eviction -/

/-- Claim C6: after a successful fetch the parsed candidate list (length < 2
filtered out, `text` or `word` field accepted) is stored under the key with
the fetch timestamp — also when empty — and when the cache then exceeds the
fixed capacity of 100 entries, exactly one entry, one of globally minimal
timestamp, is removed, so a cache holding at most 100 entries never exceeds
100 after a fetch. -/
theorem online_cache_write_eviction (cfg : Config) (oracle : ℕ → ApiOutcome) (cache : Cache)
    (now : ℚ) (leftContext pfx : String) (d : ApiData)
    (hmiss : lookupD cache (cacheKey leftContext pfx) = none)
    (hsucc : mkApiRequest (oracle 0) = some d)
    (hnd : (cache.map Prod.fst).Nodup)
    (hcap : cache.length ≤ 100) :
    (get_online_predictions cfg (Except.ok true) oracle cache now leftContext pfx).preds
      = parseResults d
  ∧ lookupD (dictSet cache (cacheKey leftContext pfx) (parseResults d, now))
      (cacheKey leftContext pfx) = some (parseResults d, now)
  ∧ ((dictSet cache (cacheKey leftContext pfx) (parseResults d, now)).length ≤ 100 →
      (get_online_predictions cfg (Except.ok true) oracle cache now leftContext pfx).cache
        = dictSet cache (cacheKey leftContext pfx) (parseResults d, now))
  ∧ (100 < (dictSet cache (cacheKey leftContext pfx) (parseResults d, now)).length →
      ∃ p, p ∈ dictSet cache (cacheKey leftContext pfx) (parseResults d, now)
        ∧ (∀ q ∈ dictSet cache (cacheKey leftContext pfx) (parseResults d, now), p.2.2 ≤ q.2.2)
        ∧ (get_online_predictions cfg (Except.ok true) oracle cache now leftContext pfx).cache
            = dictDel (dictSet cache (cacheKey leftContext pfx) (parseResults d, now)) p.1
        ∧ ((get_online_predictions cfg (Except.ok true) oracle cache now
              leftContext pfx).cache).length + 1
            = (dictSet cache (cacheKey leftContext pfx) (parseResults d, now)).length)
  ∧ ((get_online_predictions cfg (Except.ok true) oracle cache now
        leftContext pfx).cache).length ≤ 100 := by
  have hrun : runRetries oracle cfg.api_max_retries = (some d, 1, 0) :=
    retryLoop_first_success oracle 0 cfg.api_max_retries 0 d (Nat.zero_le _)
      (fun k hk => absurd hk (by omega)) (by simpa using hsucc)
  have hgop : get_online_predictions cfg (Except.ok true) oracle cache now leftContext pfx
      = ⟨parseResults d,
         if 100 < (dictSet cache (cacheKey leftContext pfx) (parseResults d, now)).length then
           match oldestPair (dictSet cache (cacheKey leftContext pfx) (parseResults d, now)) with
           | some p => dictDel (dictSet cache (cacheKey leftContext pfx) (parseResults d, now)) p.1
           | none => dictSet cache (cacheKey leftContext pfx) (parseResults d, now)
         else dictSet cache (cacheKey leftContext pfx) (parseResults d, now), 1, 0⟩ := by
    unfold get_online_predictions
    simp only [hmiss]
    simp only [gopFetch, hrun]
  have hc2le : (dictSet cache (cacheKey leftContext pfx) (parseResults d, now)).length
      ≤ cache.length + 1 := length_dictSet_le cache _ _
  refine ⟨by rw [hgop], lookupD_dictSet_self cache _ _, ?_, ?_, ?_⟩
  · intro h
    rw [hgop]
    simp [if_neg (not_lt.mpr h)]
  · intro h
    have hne : dictSet cache (cacheKey leftContext pfx) (parseResults d, now) ≠ [] := by
      intro he
      rw [he] at h
      simp at h
    obtain ⟨p, hop, hpmem, hpmin⟩ := oldestPair_spec _ hne
    have hdel : (get_online_predictions cfg (Except.ok true) oracle cache now
        leftContext pfx).cache
        = dictDel (dictSet cache (cacheKey leftContext pfx) (parseResults d, now)) p.1 := by
      rw [hgop]
      simp [if_pos h, hop]
    refine ⟨p, hpmem, hpmin, hdel, ?_⟩
    rw [hdel]
    exact length_dictDel_of_mem _ _ (nodup_keys_dictSet cache _ _ hnd)
      (List.mem_map_of_mem Prod.fst hpmem)
  · by_cases h : 100 < (dictSet cache (cacheKey leftContext pfx) (parseResults d, now)).length
    · have hne : dictSet cache (cacheKey leftContext pfx) (parseResults d, now) ≠ [] := by
        intro he
        rw [he] at h
        simp at h
      obtain ⟨p, hop, hpmem, hpmin⟩ := oldestPair_spec _ hne
      have hdel : (get_online_predictions cfg (Except.ok true) oracle cache now
          leftContext pfx).cache
          = dictDel (dictSet cache (cacheKey leftContext pfx) (parseResults d, now)) p.1 := by
        rw [hgop]
        simp [if_pos h, hop]
      rw [hdel]
      have := length_dictDel_of_mem _ _ (nodup_keys_dictSet cache (cacheKey leftContext pfx)
        (parseResults d, now) hnd) (List.mem_map_of_mem Prod.fst hpmem)
      omega
    · rw [hgop]
      simp only [if_neg h]
      omega

/-- Witness for `online_cache_write_eviction`: a successful fetch into an
empty cache stores the parsed list under the key with the fetch timestamp. -/
theorem online_cache_write_eviction_witness :
    (get_online_predictions defaultConfig (Except.ok true)
      (fun _ => ApiOutcome.ok [⟨some "HI", none⟩]) [] 0 "A" "B").preds
      = parseResults [⟨some "HI", none⟩]
    ∧ lookupD (dictSet ([] : Cache) (cacheKey "A" "B")
          (parseResults [⟨some "HI", none⟩], (0 : ℚ)))
        (cacheKey "A" "B") = some (parseResults [⟨some "HI", none⟩], (0 : ℚ)) := by
  have h := online_cache_write_eviction defaultConfig
    (fun _ => ApiOutcome.ok [⟨some "HI", none⟩]) [] 0 "A" "B" [⟨some "HI", none⟩]
    rfl rfl (by simp) (by simp)
  exact ⟨h.1, h.2.1⟩

/-! ## Priority-merge lemmas -/

theorem specTake_of_full (n : ℕ) : ∀ (ws acc : List String), n ≤ acc.length →
    specTake n acc ws = acc := by
  intro ws
  induction ws with
  | nil => intro acc _; rfl
  | cons w rest _ =>
    intro acc h
    simp only [specTake]
    rw [if_pos h]

theorem specTake_le (n : ℕ) : ∀ (ws acc : List String), acc.length ≤ n →
    (specTake n acc ws).length ≤ n := by
  intro ws
  induction ws with
  | nil => intro acc h; simpa [specTake] using h
  | cons w rest ih =>
    intro acc h
    simp only [specTake]
    by_cases hf : n ≤ acc.length
    · rw [if_pos hf]; exact h
    · rw [if_neg hf]
      by_cases hm : w ∈ acc
      · rw [if_pos hm]; exact ih acc h
      · rw [if_neg hm]
        refine ih (acc ++ [w]) ?_
        simp only [List.length_append, List.length_singleton]
        omega

theorem mergeFill_eq_specTake (n : ℕ) : ∀ (ws acc : List String), acc.length < n →
    mergeFill n acc ws = specTake n acc ws := by
  intro ws
  induction ws with
  | nil => intro acc _; rfl
  | cons w rest ih =>
    intro acc h
    simp only [mergeFill, specTake]
    rw [if_neg (not_le.mpr h)]
    by_cases hm : w ∈ acc
    · rw [if_pos hm, if_pos hm]
      exact ih acc h
    · rw [if_neg hm, if_neg hm]
      by_cases hful : n ≤ (acc ++ [w]).length
      · rw [if_pos hful]
        exact (specTake_of_full n rest (acc ++ [w]) hful).symm
      · rw [if_neg hful]
        exact ih (acc ++ [w]) (not_le.mp hful)

theorem mergeFill_take_of_full (n : ℕ) : ∀ (ws acc : List String), n ≤ acc.length →
    (mergeFill n acc ws).take n = acc.take n := by
  intro ws
  induction ws with
  | nil => intro acc _; rfl
  | cons w rest ih =>
    intro acc h
    simp only [mergeFill]
    by_cases hm : w ∈ acc
    · rw [if_pos hm]; exact ih acc h
    · rw [if_neg hm]
      have hful : n ≤ (acc ++ [w]).length := by
        simp only [List.length_append, List.length_singleton]
        omega
      rw [if_pos hful]
      rw [List.take_append_of_le_length h]

theorem mergeFill_length_le (n : ℕ) : ∀ (ws acc : List String),
    (mergeFill n acc ws).length ≤ max n (acc.length + 1) := by
  intro ws
  induction ws with
  | nil => intro acc; simp only [mergeFill]; omega
  | cons w rest ih =>
    intro acc
    simp only [mergeFill]
    by_cases hm : w ∈ acc
    · rw [if_pos hm]
      have := ih acc
      omega
    · rw [if_neg hm]
      by_cases hful : n ≤ (acc ++ [w]).length
      · rw [if_pos hful]
        simp only [List.length_append, List.length_singleton] at hful ⊢
        omega
      · rw [if_neg hful]
        have := ih (acc ++ [w])
        simp only [List.length_append, List.length_singleton] at hful this ⊢
        omega

theorem mergeFill_length_le_of_lt (n : ℕ) : ∀ (ws acc : List String), acc.length < n →
    (mergeFill n acc ws).length ≤ n := by
  intro ws
  induction ws with
  | nil => intro acc h; simp only [mergeFill]; omega
  | cons w rest ih =>
    intro acc h
    simp only [mergeFill]
    by_cases hm : w ∈ acc
    · rw [if_pos hm]; exact ih acc h
    · rw [if_neg hm]
      by_cases hful : n ≤ (acc ++ [w]).length
      · rw [if_pos hful]
        simp only [List.length_append, List.length_singleton]
        omega
      · rw [if_neg hful]
        exact ih (acc ++ [w]) (not_le.mp hful)

theorem mergeFill_fill_spec (n : ℕ) (hn : 1 ≤ n) (prio other : List String) :
    (mergeFill n (mergeFill n [] prio) other).take n = specFill prio other n
    ∧ (mergeFill n (mergeFill n [] prio) other).length ≤ n + 1 := by
  have h0 : ([] : List String).length < n := by simpa using hn
  have hphase1 : mergeFill n [] prio = specTake n [] prio := mergeFill_eq_specTake n prio [] h0
  have hlen1 : (mergeFill n [] prio).length ≤ n := mergeFill_length_le_of_lt n prio [] h0
  unfold specFill
  rw [← hphase1]
  by_cases hlt : (mergeFill n [] prio).length < n
  · have heq : mergeFill n (mergeFill n [] prio) other
        = specTake n (mergeFill n [] prio) other := mergeFill_eq_specTake n other _ hlt
    constructor
    · rw [heq]
      exact List.take_of_length_le (specTake_le n other _ (le_of_lt hlt))
    · rw [heq]
      exact le_trans (specTake_le n other _ (le_of_lt hlt)) (by omega)
  · have hfull : n ≤ (mergeFill n [] prio).length := not_lt.mp hlt
    constructor
    · rw [mergeFill_take_of_full n other _ hfull]
      rw [specTake_of_full n other _ hfull]
      exact List.take_of_length_le hlen1
    · have := mergeFill_length_le n other (mergeFill n [] prio)
      omega

/-! ## Claim C8: the apiFirst / offlineFirst merge strategies -/

/-- Claim C8 (as stated) is false in one corner: the fill loops check the
length bound only after appending, so when the prioritized source alone
already supplies `maxSuggestions` words, one extra word from the other source
is appended before the loop stops: `api_first` with remote `["AA","BB"]`,
offline `[("CC",1)]` and `maxSuggestions = 2` returns three words. -/
theorem merge_api_first_overfill_counterexample :
    merge_api_first [("CC", 1)] ["AA", "BB"] 2 = ["AA", "BB", "CC"]
    ∧ 2 < (merge_api_first [("CC", 1)] ["AA", "BB"] 2).length := by decide

/-- Claim C8 (amended): `apiFirst`/`offlineFirst` take words from the
prioritized source in order (skipping duplicates), then fill from the other
source in order; the first `maxSuggestions` words collected are exactly as
the claim describes (for `maxSuggestions ≥ 1`), but when the prioritized
source alone reaches `maxSuggestions`, one extra word from the other source
may trail, so the result has at most `maxSuggestions + 1` words.  The claim's
concrete example holds exactly: `apiFirst` with remote `["THE","THERE"]`,
offline `[("THERE",5.0),("THEY",3.0)]`, `maxSuggestions = 3` returns
`["THE","THERE","THEY"]`. -/
theorem merge_priority_fill_spec (offs : List (String × ℚ)) (ons : List String) (n : ℕ)
    (hn : 1 ≤ n) :
    (merge_api_first offs ons n).take n = specFill ons (offs.map Prod.fst) n
  ∧ (merge_api_first offs ons n).length ≤ n + 1
  ∧ (merge_offline_first offs ons n).take n = specFill (offs.map Prod.fst) ons n
  ∧ (merge_offline_first offs ons n).length ≤ n + 1
  ∧ merge_api_first [("THERE", 5), ("THEY", 3)] ["THE", "THERE"] 3
      = ["THE", "THERE", "THEY"] := by
  obtain ⟨h1, h2⟩ := mergeFill_fill_spec n hn ons (offs.map Prod.fst)
  obtain ⟨h3, h4⟩ := mergeFill_fill_spec n hn (offs.map Prod.fst) ons
  unfold merge_api_first merge_offline_first
  exact ⟨h1, h2, h3, h4, by decide⟩

/-- Witness for `merge_priority_fill_spec` at the claim's concrete example. -/
theorem merge_priority_fill_spec_witness :
    merge_api_first [("THERE", 5), ("THEY", 3)] ["THE", "THERE"] 3
      = ["THE", "THERE", "THEY"] :=
  (merge_priority_fill_spec [("THERE", 5), ("THEY", 3)] ["THE", "THERE"] 3
    (by decide)).2.2.2.2

/-! ## Length bounds for the façade -/

theorem offline_length_le (store : Store) (now : ℚ) (text : String) (n : ℕ) :
    (get_offline_predictions_with_scores store now text n).length ≤ n := by
  simp only [get_offline_predictions_with_scores]
  split <;> (simp only [List.length_take]; omega)

theorem merge_weighted_length_le (aW oW : ℚ) (offs : List (String × ℚ)) (ons : List String)
    (n : ℕ) : (merge_weighted aW oW offs ons n).length ≤ n := by
  unfold merge_weighted
  simp only [List.length_map, List.length_take]
  omega

theorem merge_api_first_length_le (offline : List (String × ℚ)) (online : List String)
    (n : ℕ) : (merge_api_first offline online n).length ≤ n + 2 := by
  have hp1 := mergeFill_length_le n online []
  have hp2 := mergeFill_length_le n (offline.map Prod.fst) (mergeFill n [] online)
  unfold merge_api_first
  simp only [List.length_nil] at hp1
  omega

theorem merge_offline_first_length_le (offline : List (String × ℚ)) (online : List String)
    (n : ℕ) : (merge_offline_first offline online n).length ≤ n + 2 := by
  have hp1 := mergeFill_length_le n (offline.map Prod.fst) []
  have hp2 := mergeFill_length_le n online (mergeFill n [] (offline.map Prod.fst))
  unfold merge_offline_first
  simp only [List.length_nil] at hp1
  omega

theorem merge_predictions_length (cfg : Config) (offline : List (String × ℚ))
    (online : List String) (n : ℕ) :
    (1 ≤ n → (merge_predictions cfg offline online n).length ≤ n + 1)
    ∧ (merge_predictions cfg offline online n).length ≤ n + 2
    ∧ (cfg.merge_strategy ≠ "api_first" → cfg.merge_strategy ≠ "offline_first" →
        (merge_predictions cfg offline online n).length ≤ n) := by
  unfold merge_predictions
  by_cases h1 : cfg.merge_strategy = "api_first"
  · rw [if_pos h1]
    refine ⟨?_, merge_api_first_length_le offline online n, fun hc _ => absurd h1 hc⟩
    intro hn
    have := (mergeFill_fill_spec n hn online (offline.map Prod.fst)).2
    unfold merge_api_first
    exact this
  · rw [if_neg h1]
    by_cases h2 : cfg.merge_strategy = "offline_first"
    · rw [if_pos h2]
      refine ⟨?_, merge_offline_first_length_le offline online n, fun _ hc => absurd h2 hc⟩
      intro hn
      have := (mergeFill_fill_spec n hn (offline.map Prod.fst) online).2
      unfold merge_offline_first
      exact this
    · rw [if_neg h2]
      have hw := merge_weighted_length_le cfg.api_weight cfg.offline_weight offline online n
      exact ⟨fun _ => le_trans hw (by omega), le_trans hw (by omega), fun _ _ => hw⟩

theorem gpsTryRegion_length (cfg : Config) (offline : List (String × ℚ))
    (outcome : Except Unit (List String)) (n : ℕ) (hoff : offline.length ≤ n) :
    (1 ≤ n → (gpsTryRegion cfg offline outcome n).length ≤ n + 1)
    ∧ (gpsTryRegion cfg offline outcome n).length ≤ n + 2
    ∧ (cfg.merge_strategy ≠ "api_first" → cfg.merge_strategy ≠ "offline_first" →
        (gpsTryRegion cfg offline outcome n).length ≤ n) := by
  cases outcome with
  | error e =>
    have : (gpsTryRegion cfg offline (Except.error e) n).length = offline.length := by
      simp [gpsTryRegion]
    rw [this]
    exact ⟨fun _ => by omega, by omega, fun _ _ => hoff⟩
  | ok online =>
    by_cases h : online = []
    · have : (gpsTryRegion cfg offline (Except.ok online) n).length = offline.length := by
        simp [gpsTryRegion, h]
      rw [this]
      exact ⟨fun _ => by omega, by omega, fun _ _ => hoff⟩
    · have : gpsTryRegion cfg offline (Except.ok online) n
          = merge_predictions cfg offline online n := by
        simp [gpsTryRegion, h]
      rw [this]
      exact merge_predictions_length cfg offline online n

/-! ## Claim C1: the façade's suggestion-count bound and totality -/

/-- Claim C1 (as stated) is false for the `api_first`/`offline_first` merge
strategies: with `merge_strategy = "api_first"`, a learned word `CC`, a remote
service returning `AA, BB`, and `maxSuggestions = 2`, the façade returns
three words, because the fill loop of `_merge_api_first` appends one offline
word after the remote words already filled the quota. -/
theorem suggestions_exceed_max_counterexample :
    (get_predictive_suggestions
        ⟨true, 5, 2, "100k", true, 30, 300, "api_first", 7/10, 3/10, false⟩
        ⟨[("CC", ⟨3, 0⟩)], [], []⟩ 2 true (Except.ok true)
        (fun _ => ApiOutcome.ok [⟨some "AA", none⟩, ⟨some "BB", none⟩]) []
        (some "") 2).1 = ["AA", "BB", "CC"] := by
  with_unfolding_all decide

/-- Claim C1 (amended): `get_predictive_suggestions` is total (the shallow
embedding returns a value for every oracle outcome, and every remote-region
outcome — including a raised exception — is absorbed by `gpsTryRegion`), and
for `maxSuggestions ≥ 1` it returns at most `maxSuggestions` words whenever
the merge strategy dispatches to `weighted` (the default) or the remote path
is skipped, empty, or failed; with `api_first`/`offline_first` a successful
remote merge can exceed the bound by one word (by two when
`maxSuggestions = 0`), so the unconditional bounds are `maxSuggestions + 1`
(for `maxSuggestions ≥ 1`) and `maxSuggestions + 2` (always). -/
theorem suggestions_length_bound (cfg : Config) (store : Store) (now : ℚ) (netFacade : Bool)
    (gopNet : Except Unit Bool) (oracle : ℕ → ApiOutcome) (cache : Cache)
    (textOpt : Option String) (n : ℕ) (hn : 1 ≤ n) :
    ((get_predictive_suggestions cfg store now netFacade gopNet oracle cache
        textOpt n).1).length ≤ n + 1
  ∧ (cfg.merge_strategy ≠ "api_first" → cfg.merge_strategy ≠ "offline_first" →
      ((get_predictive_suggestions cfg store now netFacade gopNet oracle cache
          textOpt n).1).length ≤ n)
  ∧ (∀ (outcome : Except Unit (List String)) (offline : List (String × ℚ)) (m : ℕ),
      offline.length ≤ m → (gpsTryRegion cfg offline outcome m).length ≤ m + 2) := by
  have hoff := offline_length_le store now (textOpt.getD "") n
  refine ⟨?_, ?_, fun outcome offline m hm => (gpsTryRegion_length cfg offline outcome m hm).2.1⟩
  · unfold get_predictive_suggestions
    by_cases h : (cfg.online_mode_enabled && netFacade) = false
    · simp only [h, if_pos]
      simp only [List.length_map]
      omega
    · rw [if_neg h]
      exact (gpsTryRegion_length cfg _
        (Except.ok (get_online_predictions cfg gopNet oracle cache now
          (parseContextPfx (textOpt.getD "")).1 (parseContextPfx (textOpt.getD "")).2).preds)
        n hoff).1 hn
  · intro hc1 hc2
    unfold get_predictive_suggestions
    by_cases h : (cfg.online_mode_enabled && netFacade) = false
    · simp only [h, if_pos]
      simp only [List.length_map]
      omega
    · rw [if_neg h]
      exact (gpsTryRegion_length cfg _
        (Except.ok (get_online_predictions cfg gopNet oracle cache now
          (parseContextPfx (textOpt.getD "")).1 (parseContextPfx (textOpt.getD "")).2).preds)
        n hoff).2.2 hc1 hc2

/-- Witness for `suggestions_length_bound` at a concrete offline-only call. -/
theorem suggestions_length_bound_witness :
    ((get_predictive_suggestions defaultConfig ⟨[], [], []⟩ 0 false (Except.ok false)
        (fun _ => ApiOutcome.urlError) [] none 2).1).length ≤ 2 + 1 :=
  (suggestions_length_bound defaultConfig ⟨[], [], []⟩ 0 false (Except.ok false)
    (fun _ => ApiOutcome.urlError) [] none 2 (by decide)).1

/-! ## Lemmas for the weighted merge -/

theorem dictSet_fresh {β : Type} : ∀ (d : List (String × β)) (k : String) (v : β),
    k ∉ d.map Prod.fst → dictSet d k v = d ++ [(k, v)] := by
  intro d
  induction d with
  | nil => intro k v _; rfl
  | cons p rest ih =>
    intro k v h
    obtain ⟨k0, v0⟩ := p
    have h1 : k0 ≠ k := fun he => h (by simp [he])
    have h2 : k ∉ rest.map Prod.fst := fun hm => h (by simp [hm])
    simp [dictSet, h1, ih k v h2]

theorem foldl_dictSet_fresh (f : String × ℚ → ℚ) :
    ∀ (l d : List (String × ℚ)),
      (∀ p ∈ l, p.1 ∉ d.map Prod.fst) → (l.map Prod.fst).Nodup →
      l.foldl (fun d p => dictSet d p.1 (f p)) d = d ++ l.map (fun p => (p.1, f p)) := by
  intro l
  induction l with
  | nil => intro d _ _; simp
  | cons p rest ih =>
    intro d hfresh hnd
    have hnd2 : (p.1 :: rest.map Prod.fst).Nodup := by simpa using hnd
    have hhead : p.1 ∉ rest.map Prod.fst := (List.nodup_cons.mp hnd2).1
    have htail : (rest.map Prod.fst).Nodup := (List.nodup_cons.mp hnd2).2
    simp only [List.foldl_cons]
    rw [dictSet_fresh d p.1 (f p) (hfresh p (List.mem_cons_self _ _))]
    have h2 : ∀ q ∈ rest, q.1 ∉ (d ++ [(p.1, f p)]).map Prod.fst := by
      intro q hq
      simp only [List.map_append, List.mem_append]
      rintro (hc | hc)
      · exact hfresh q (List.mem_cons_of_mem _ hq) hc
      · have hqp : q.1 = p.1 := by simpa using hc
        exact hhead (hqp ▸ List.mem_map.mpr ⟨q, hq, rfl⟩)
    rw [ih (d ++ [(p.1, f p)]) h2 htail]
    simp

theorem offlinePhase_eq (oW : ℚ) (offs : List (String × ℚ))
    (h : (offs.map Prod.fst).Nodup) :
    offlinePhase oW offs = offs.map (fun p => (p.1,
      (if 0 < maxOffline (offs.map Prod.snd) then p.2 / maxOffline (offs.map Prod.snd)
        else 0) * oW)) := by
  simp only [offlinePhase]
  exact foldl_dictSet_fresh _ offs [] (by simp) h

theorem lookupD_map_pair (f : String × ℚ → ℚ) :
    ∀ (l : List (String × ℚ)) (w : String),
      lookupD (l.map (fun p => (p.1, f p))) w = (l.find? (fun p => p.1 = w)).map f := by
  intro l
  induction l with
  | nil => intro w; rfl
  | cons p rest ih =>
    intro w
    by_cases h : p.1 = w
    · simp [lookupD, List.find?, h]
    · simp [lookupD, List.find?, h, ih]

theorem posOf_eq_none_of_not_mem : ∀ (l : List String) (w : String), w ∉ l →
    posOf l w = none := by
  intro l
  induction l with
  | nil => intro w _; rfl
  | cons x xs ih =>
    intro w h
    have h1 : x ≠ w := fun he => h (he ▸ List.mem_cons_self _ _)
    simp [posOf, h1, ih w (fun hm => h (List.mem_cons_of_mem _ hm))]

theorem posOf_isSome_of_mem : ∀ (l : List String) (w : String), w ∈ l →
    (posOf l w).isSome := by
  intro l
  induction l with
  | nil => intro w h; simp at h
  | cons x xs ih =>
    intro w h
    by_cases h1 : x = w
    · simp [posOf, h1]
    · rcases List.mem_cons.mp h with rfl | hm
      · exact absurd rfl h1
      · simp only [posOf, if_neg h1]
        have := ih w hm
        cases hp : posOf xs w with
        | none => rw [hp] at this; simp at this
        | some j => simp

theorem lookupD_dictAdd (d : List (String × ℚ)) (k : String) (v : ℚ) (w : String) :
    lookupD (dictAdd d k v) w
      = if w = k then some ((lookupD d k).getD 0 + v) else lookupD d w := by
  unfold dictAdd
  exact lookupD_dictSet d k _ w

theorem mem_keys_dictAdd (d : List (String × ℚ)) (k : String) (v : ℚ) (w : String) :
    w ∈ (dictAdd d k v).map Prod.fst ↔ w ∈ d.map Prod.fst ∨ w = k := by
  unfold dictAdd
  rw [keys_dictSet]
  by_cases h : k ∈ d.map Prod.fst
  · rw [if_pos h]
    constructor
    · exact Or.inl
    · rintro (hm | rfl)
      · exact hm
      · exact h
  · rw [if_neg h]
    simp

theorem lookupD_onlinePhase (aW : ℚ) (N : ℕ) :
    ∀ (ws : List String) (i : ℕ) (d : List (String × ℚ)) (w : String), ws.Nodup →
      lookupD (onlinePhase aW N ws i d) w
        = match posOf ws w with
          | some j => some ((lookupD d w).getD 0 + apiRankScore (i + j) N * aW)
          | none => lookupD d w := by
  intro ws
  induction ws with
  | nil => intro i d w _; rfl
  | cons w0 rest ih =>
    intro i d w hnd
    have hw0 : w0 ∉ rest := (List.nodup_cons.mp hnd).1
    have hndr : rest.Nodup := (List.nodup_cons.mp hnd).2
    simp only [onlinePhase]
    rw [ih (i + 1) (dictAdd d w0 (apiRankScore i N * aW)) w hndr]
    by_cases hw : w = w0
    · subst hw
      have hnone : posOf rest w = none := posOf_eq_none_of_not_mem rest w hw0
      rw [hnone]
      simp only [posOf, if_pos rfl]
      rw [lookupD_dictAdd, if_pos rfl]
      simp
    · have hpos : posOf (w0 :: rest) w = (posOf rest w).map (· + 1) := by
        simp [posOf, Ne.symm hw]
      rw [hpos]
      rw [lookupD_dictAdd, if_neg hw]
      cases hp : posOf rest w with
      | none => simp
      | some j =>
        have he : i + 1 + j = i + (j + 1) := by omega
        simp [he]

theorem mem_keys_onlinePhase (aW : ℚ) (N : ℕ) :
    ∀ (ws : List String) (i : ℕ) (d : List (String × ℚ)) (w : String),
      w ∈ (onlinePhase aW N ws i d).map Prod.fst ↔ w ∈ d.map Prod.fst ∨ w ∈ ws := by
  intro ws
  induction ws with
  | nil => intro i d w; simp [onlinePhase]
  | cons w0 rest ih =>
    intro i d w
    simp only [onlinePhase]
    rw [ih (i + 1) _ w]
    rw [mem_keys_dictAdd]
    simp only [List.mem_cons]
    tauto

theorem nodup_keys_onlinePhase (aW : ℚ) (N : ℕ) :
    ∀ (ws : List String) (i : ℕ) (d : List (String × ℚ)),
      (d.map Prod.fst).Nodup → ((onlinePhase aW N ws i d).map Prod.fst).Nodup := by
  intro ws
  induction ws with
  | nil => intro i d h; exact h
  | cons w0 rest ih =>
    intro i d h
    exact ih (i + 1) _ (by unfold dictAdd; exact nodup_keys_dictSet d w0 _ h)

theorem find?_key_eq_none_iff (offs : List (String × ℚ)) (w : String) :
    offs.find? (fun p => p.1 = w) = none ↔ w ∉ offs.map Prod.fst := by
  rw [List.find?_eq_none]
  constructor
  · intro h hm
    rcases List.mem_map.mp hm with ⟨q, hq, hq1⟩
    have := h q hq
    simp [hq1] at this
  · intro h q hq
    simp only [decide_eq_true_eq]
    intro he
    exact h (List.mem_map.mpr ⟨q, hq, he⟩)

theorem nodup_keys_unified (aW oW : ℚ) (offs : List (String × ℚ)) (ons : List String)
    (hoff : (offs.map Prod.fst).Nodup) :
    ((unifiedScores aW oW offs ons).map Prod.fst).Nodup := by
  unfold unifiedScores
  apply nodup_keys_onlinePhase
  rw [offlinePhase_eq oW offs hoff]
  have he : (offs.map (fun p => (p.1,
      (if 0 < maxOffline (offs.map Prod.snd) then p.2 / maxOffline (offs.map Prod.snd)
        else 0) * oW))).map Prod.fst = offs.map Prod.fst := by
    rw [List.map_map]
    rfl
  rw [he]
  exact hoff

theorem lookupD_unified (aW oW : ℚ) (offs : List (String × ℚ)) (ons : List String)
    (w : String) (hoff : (offs.map Prod.fst).Nodup) (hon : ons.Nodup) :
    lookupD (unifiedScores aW oW offs ons) w
      = if w ∈ offs.map Prod.fst ∨ w ∈ ons then some (claimScore aW oW offs ons w)
        else none := by
  unfold unifiedScores
  rw [lookupD_onlinePhase aW ons.length ons 0 _ w hon]
  have hbase : lookupD (offlinePhase oW offs) w
      = (offs.find? (fun p => p.1 = w)).map (fun p =>
          (if 0 < maxOffline (offs.map Prod.snd) then p.2 / maxOffline (offs.map Prod.snd)
            else 0) * oW) := by
    rw [offlinePhase_eq oW offs hoff]
    exact lookupD_map_pair _ offs w
  cases hp : posOf ons w with
  | some j =>
    have hmem : w ∈ ons := by
      by_contra hc
      rw [posOf_eq_none_of_not_mem ons w hc] at hp
      exact Option.noConfusion hp
    have hN : ons.length ≠ 0 := by
      intro he
      rw [List.length_eq_zero.mp he] at hmem
      simp at hmem
    rw [if_pos (Or.inr hmem)]
    unfold claimScore claimApiContrib claimOfflineContrib
    rw [hp, hbase]
    cases hf : offs.find? (fun p => p.1 = w) with
    | none =>
      simp only [Option.map_none, Option.getD_none]
      rw [apiRankScore, if_neg hN]
      simp
    | some q =>
      simp only [Option.map_some, Option.getD_some]
      rw [apiRankScore, if_neg hN]
      simp [Nat.zero_add]
  | none =>
    have hnotmem : w ∉ ons := by
      intro hm
      have := posOf_isSome_of_mem ons w hm
      rw [hp] at this
      simp at this
    by_cases hk : w ∈ offs.map Prod.fst
    · rw [if_pos (Or.inl hk)]
      rw [hbase]
      cases hf : offs.find? (fun p => p.1 = w) with
      | none => exact absurd hk (find?_key_eq_none_iff offs w |>.mp hf)
      | some q =>
        simp only [Option.map_some]
        unfold claimScore claimOfflineContrib claimApiContrib
        rw [hf, hp]
        simp
    · rw [if_neg (by rintro (hc | hc); exacts [hk hc, hnotmem hc])]
      rw [hbase]
      rw [(find?_key_eq_none_iff offs w).mpr hk]
      rfl

theorem unified_pair_iff (aW oW : ℚ) (offs : List (String × ℚ)) (ons : List String)
    (hoff : (offs.map Prod.fst).Nodup) (hon : ons.Nodup) (w : String) (s : ℚ) :
    (w, s) ∈ unifiedScores aW oW offs ons
      ↔ (w ∈ offs.map Prod.fst ∨ w ∈ ons) ∧ s = claimScore aW oW offs ons w := by
  constructor
  · intro hm
    have hl : lookupD (unifiedScores aW oW offs ons) w = some s :=
      lookupD_eq_some_of_mem (nodup_keys_unified aW oW offs ons hoff) hm
    rw [lookupD_unified aW oW offs ons w hoff hon] at hl
    by_cases hc : w ∈ offs.map Prod.fst ∨ w ∈ ons
    · rw [if_pos hc] at hl
      refine ⟨hc, ?_⟩
      have := Option.some.inj hl
      exact this.symm
    · rw [if_neg hc] at hl
      exact absurd hl (by simp)
  · rintro ⟨hc, rfl⟩
    have h := lookupD_unified aW oW offs ons w hoff hon
    rw [if_pos hc] at h
    exact mem_of_lookupD_eq_some h

/-! ## Claim C7: the weighted merge formula -/

/-- Claim C7: `_merge_weighted` returns the top `maxSuggestions` words of a
list sorted descending by the combined score in which an offline candidate
contributes its score divided by the maximum offline score (0 if that
maximum is not positive) times `offline_weight`, a remote candidate at
zero-based position `i` of a list of length `N` contributes `(N - i) / N`
times `api_weight`, and a word in both sources receives the sum (stated for
duplicate-free candidate lists, which the callers always supply: offline
candidates come from a dict, remote candidates are deduplicated per
response parse order). -/
theorem merge_weighted_formula (aW oW : ℚ) (offs : List (String × ℚ)) (ons : List String)
    (n : ℕ) (hoff : (offs.map Prod.fst).Nodup) (hon : ons.Nodup) :
    ∃ l : List (String × ℚ),
      (∀ w s, (w, s) ∈ l ↔ ((w ∈ offs.map Prod.fst ∨ w ∈ ons)
          ∧ s = claimScore aW oW offs ons w))
      ∧ l.Pairwise (fun a b => b.2 ≤ a.2)
      ∧ merge_weighted aW oW offs ons n = (l.take n).map Prod.fst := by
  refine ⟨sortDesc (unifiedScores aW oW offs ons), ?_, ?_, rfl⟩
  · intro w s
    unfold sortDesc
    rw [List.Perm.mem_iff (List.perm_insertionSort descRel _)]
    exact unified_pair_iff aW oW offs ons hoff hon w s
  · exact List.sorted_insertionSort descRel _

/-- Witness for `merge_weighted_formula` at concrete candidate lists with the
default weights. -/
theorem merge_weighted_formula_witness :
    ∃ l : List (String × ℚ),
      (∀ w s, (w, s) ∈ l ↔ ((w ∈ ([("THERE", (5 : ℚ)), ("THEY", 3)].map Prod.fst)
            ∨ w ∈ ["THE", "THERE"])
          ∧ s = claimScore (7/10) (3/10) [("THERE", 5), ("THEY", 3)] ["THE", "THERE"] w))
      ∧ l.Pairwise (fun a b => b.2 ≤ a.2)
      ∧ merge_weighted (7/10) (3/10) [("THERE", 5), ("THEY", 3)] ["THE", "THERE"] 3
          = (l.take 3).map Prod.fst :=
  merge_weighted_formula (7/10) (3/10) [("THERE", 5), ("THEY", 3)] ["THE", "THERE"] 3
    (by decide) (by decide)

end KeyboardPredictive
